import Mathlib

/-!
Verification of the expense-settlement engine of the WanderGenius backend
(route handlers in the budget router: balance aggregation, greedy debt
resolution, totals, and the delete-expense handler).

Currency amounts are modelled as exact rationals; the JavaScript source
computes over IEEE doubles.  The `toFixed(2)` rounding of the source is
modelled as round-to-nearest on rationals.  Participant and expense records
keep the field names of the source (`from` is a Lean keyword, so the
transfer fields are `from_` and `to_`).
-/

/-- A budget participant as stored in the database (`tripParticipant`). -/
structure Participant where
  id : String
  name : String
deriving DecidableEq, Repr

/-- An expense record (`expense` table): amount, payer id, split member ids. -/
structure Expense where
  amount : ℚ
  paidById : String
  splitWithIds : List String
deriving DecidableEq, Repr

/-- One entry of the `balances` object of the GET handler:
`balances[p.id] = { name: p.name, amount: 0 }`.  The object is modelled as a
list of entries keyed by `id`, in participant insertion order. -/
structure BalanceEntry where
  id : String
  name : String
  amount : ℚ
deriving DecidableEq, Repr

/-- A transfer pushed onto the `debts` array: `{ from, to, amount }`. -/
structure Transfer where
  from_ : String
  to_ : String
  amount : ℚ
deriving DecidableEq, Repr

/-- Mutation `balances[pid].amount += delta` on the balance object: updates
the (first) entry with the given id, and is a no-op when the id is absent,
mirroring the `if (balances[pid])` guards of the source. -/
def addTo : List BalanceEntry → String → ℚ → List BalanceEntry
  | [], _, _ => []
  | b :: bs, pid, delta =>
    if b.id = pid then { b with amount := b.amount + delta } :: bs
    else b :: addTo bs pid delta

/-- The ids present in the balance object (its keys). -/
def balIds (bs : List BalanceEntry) : List String := bs.map (fun b => b.id)

/-- The display names of the entries of a balance list. -/
def balNames (bs : List BalanceEntry) : List String := bs.map (fun b => b.name)

/-- One iteration of `budget.expenses.forEach(expense => ...)`: when the
split set is non-empty, credit the full amount to the payer (if known) and
debit `amount / splitBetween.length` from every known split member.  When
the split set is empty nothing at all happens (the guard
`if (splitBetween.length > 0)` encloses both the credit and the debit). -/
def applyExpense (bs : List BalanceEntry) (e : Expense) : List BalanceEntry :=
  if 0 < e.splitWithIds.length then
    e.splitWithIds.foldl
      (fun acc pid =>
        if pid ∈ balIds acc then addTo acc pid (-(e.amount / (e.splitWithIds.length : ℚ)))
        else acc)
      (if e.paidById ∈ balIds bs then addTo bs e.paidById e.amount else bs)
  else bs

/-- The Balance Aggregator: initialise every participant to 0, then fold the
expense loop over the expense list. -/
def computeBalances (ps : List Participant) (es : List Expense) : List BalanceEntry :=
  es.foldl applyExpense (ps.map (fun p => { id := p.id, name := p.name, amount := 0 }))

/-- Sum of the amounts of a list of balance entries. -/
def entriesSum (bs : List BalanceEntry) : ℚ := (bs.map (fun b => b.amount)).sum

/-- The debtor partition: `data.amount < -0.01`. -/
def debtorsOf (bs : List BalanceEntry) : List BalanceEntry :=
  bs.filter (fun b => b.amount < -(1/100))

/-- The creditor partition: `data.amount > 0.01`. -/
def creditorsOf (bs : List BalanceEntry) : List BalanceEntry :=
  bs.filter (fun b => b.amount > 1/100)

/-- Stable insertion into an ascending run: the new element goes after every
element whose amount is ≤ its own, as the stable `sort((a,b) => a.amount - b.amount)`
of the source places it. -/
def insertAsc (x : BalanceEntry) : List BalanceEntry → List BalanceEntry
  | [] => [x]
  | y :: l => if y.amount ≤ x.amount then y :: insertAsc x l else x :: y :: l

/-- Stable ascending sort by amount (most negative first), modelling
`debtors.sort((a, b) => a.amount - b.amount)`. -/
def sortAsc (l : List BalanceEntry) : List BalanceEntry :=
  l.foldl (fun acc x => insertAsc x acc) []

/-- Stable insertion into a descending run, for
`creditors.sort((a, b) => b.amount - a.amount)`. -/
def insertDesc (x : BalanceEntry) : List BalanceEntry → List BalanceEntry
  | [] => [x]
  | y :: l => if x.amount ≤ y.amount then y :: insertDesc x l else x :: y :: l

/-- Stable descending sort by amount (most positive first). -/
def sortDesc (l : List BalanceEntry) : List BalanceEntry :=
  l.foldl (fun acc x => insertDesc x acc) []

/-- `Number(amount.toFixed(2))`: round to 2 decimal places (nearest). -/
def round2 (q : ℚ) : ℚ := ((round (q * 100) : ℤ) : ℚ) / 100

/-- `const amount = Math.min(Math.abs(debtor.amount), creditor.amount)`. -/
def loopAmount (d c : BalanceEntry) : ℚ := min |d.amount| c.amount

/-- The mutation `debtor.amount += amount` followed by
`if (Math.abs(debtor.amount) < 0.01) i++`: the debtor head either advances
(is retired from the list) or stays with its updated amount. -/
def advanceDebtors (d : BalanceEntry) (ds : List BalanceEntry) (a : ℚ) : List BalanceEntry :=
  if |d.amount + a| < 1/100 then ds else { d with amount := d.amount + a } :: ds

/-- The mutation `creditor.amount -= amount` followed by
`if (creditor.amount < 0.01) j++`. -/
def advanceCreditors (c : BalanceEntry) (cs : List BalanceEntry) (a : ℚ) : List BalanceEntry :=
  if c.amount - a < 1/100 then cs else { c with amount := c.amount - a } :: cs

/-- The two-pointer debt-resolution `while` loop.  The advancing of a pointer
is modelled by dropping the head of the corresponding list; a head that does
not advance is kept with its updated amount.  A transfer is pushed before the
mutations when the unrounded amount exceeds `0.01`.  The source loop has no
bound, so a fuel parameter makes the function total; when the fuel runs out
the current state is returned with both lists non-empty, which terminating
runs never reach (see the termination theorem). -/
def resolveLoop : Nat → List BalanceEntry → List BalanceEntry →
    List Transfer × List BalanceEntry × List BalanceEntry
  | 0, ds, cs => ([], ds, cs)
  | _ + 1, [], cs => ([], [], cs)
  | _ + 1, d :: ds, [] => ([], d :: ds, [])
  | fuel + 1, d :: ds, c :: cs =>
    if 1/100 < loopAmount d c then
      (⟨d.name, c.name, round2 (loopAmount d c)⟩ ::
        (resolveLoop fuel (advanceDebtors d ds (loopAmount d c))
          (advanceCreditors c cs (loopAmount d c))).1,
        (resolveLoop fuel (advanceDebtors d ds (loopAmount d c))
          (advanceCreditors c cs (loopAmount d c))).2)
    else
      resolveLoop fuel (advanceDebtors d ds (loopAmount d c))
        (advanceCreditors c cs (loopAmount d c))

/-- The Transfer Resolver: partition, sort both lists, run the loop.  The
fuel `debtors.length + creditors.length` is enough for every run in which the
loop terminates (each iteration retires at least one list head). -/
def resolveDebts (bs : List BalanceEntry) : List Transfer :=
  let debtors := sortAsc (debtorsOf bs)
  let creditors := sortDesc (creditorsOf bs)
  (resolveLoop (debtors.length + creditors.length) debtors creditors).1

/-- `budget.expenses.reduce((sum, e) => sum + e.amount, 0)`. -/
def totalSpentOf (es : List Expense) : ℚ :=
  es.foldl (fun sum e => sum + e.amount) 0

/-- The computed fields of the GET `/:tripId` budget response. -/
structure BudgetResponse where
  totalSpent : ℚ
  remaining : ℚ
  debts : List Transfer
deriving DecidableEq, Repr

/-- The settlement part of the GET `/:tripId` handler: balances, debt
resolution, `totalSpent`, `remaining = totalBudget - totalSpent`. -/
def getBudgetResponse (totalBudget : ℚ) (ps : List Participant) (es : List Expense) :
    BudgetResponse :=
  { totalSpent := totalSpentOf es
    remaining := totalBudget - totalSpentOf es
    debts := resolveDebts (computeBalances ps es) }

/-- Mutation of the amount of the (first) entry with a given display name;
no-op when the name is absent.  Transfers identify participants by `name`,
so settling them against balances is done by name. -/
def addToByName : List BalanceEntry → String → ℚ → List BalanceEntry
  | [], _, _ => []
  | b :: bs, n, delta =>
    if b.name = n then { b with amount := b.amount + delta } :: bs
    else b :: addToByName bs n delta

/-- Application of one emitted transfer to the balances, in the direction the
specification states: add the amount to the payer (`from`) and subtract it
from the receiver (`to`). -/
def applyTransfer (bs : List BalanceEntry) (t : Transfer) : List BalanceEntry :=
  addToByName (addToByName bs t.from_ t.amount) t.to_ (-t.amount)

/-- Application of every emitted transfer, in emission order. -/
def applyDebts (bs : List BalanceEntry) (ts : List Transfer) : List BalanceEntry :=
  ts.foldl applyTransfer bs

/-- Total amount a participant pays across a transfer list (as `from`). -/
def paidTotal (n : String) (ts : List Transfer) : ℚ :=
  ((ts.filter (fun t => t.from_ = n)).map Transfer.amount).sum

/-- Total amount a participant receives across a transfer list (as `to`). -/
def receivedTotal (n : String) (ts : List Transfer) : ℚ :=
  ((ts.filter (fun t => t.to_ = n)).map Transfer.amount).sum

/-- An expense row as stored in the database, carrying the budget it belongs
to (through which trip ownership would have to be checked). -/
structure StoredExpense where
  id : String
  budgetId : String
  amount : ℚ
deriving DecidableEq, Repr

/-- The DELETE `/:tripId/expense/:expenseId` handler.  It receives the
authenticated caller (`req.userId`) and the tripId path segment but uses
neither: it runs `prisma.expense.delete({ where: { id: expenseId } })`
directly.  A missing row makes the delete throw, caught as a 500; success
returns 200 with the row removed. -/
def deleteExpenseHandler (db : List StoredExpense) (tripId expenseId userId : String) :
    Nat × List StoredExpense :=
  let _ := tripId
  let _ := userId
  if db.any (fun e => e.id == expenseId) then
    (200, db.filter (fun e => e.id ≠ expenseId))
  else
    (500, db)

/-! ### Basic lemmas about the balance object -/

theorem balIds_cons (b : BalanceEntry) (bs : List BalanceEntry) :
    balIds (b :: bs) = b.id :: balIds bs := rfl

theorem balNames_cons (b : BalanceEntry) (bs : List BalanceEntry) :
    balNames (b :: bs) = b.name :: balNames bs := rfl

theorem entriesSum_cons (b : BalanceEntry) (bs : List BalanceEntry) :
    entriesSum (b :: bs) = b.amount + entriesSum bs := by
  simp [entriesSum]

theorem addTo_balIds (pid : String) (delta : ℚ) (bs : List BalanceEntry) :
    balIds (addTo bs pid delta) = balIds bs := by
  induction bs with
  | nil => rfl
  | cons b bs ih =>
    by_cases h : b.id = pid
    · simp [addTo, h, balIds]
    · simpa [addTo, h, balIds] using ih

theorem addTo_balNames (pid : String) (delta : ℚ) (bs : List BalanceEntry) :
    balNames (addTo bs pid delta) = balNames bs := by
  induction bs with
  | nil => rfl
  | cons b bs ih =>
    by_cases h : b.id = pid
    · simp [addTo, h, balNames]
    · simpa [addTo, h, balNames] using ih

theorem addTo_sum (pid : String) (delta : ℚ) (bs : List BalanceEntry)
    (h : pid ∈ balIds bs) :
    entriesSum (addTo bs pid delta) = entriesSum bs + delta := by
  induction bs with
  | nil => simp [balIds] at h
  | cons b bs ih =>
    by_cases hb : b.id = pid
    · simp only [addTo, if_pos hb, entriesSum_cons]
      ring
    · rw [balIds_cons, List.mem_cons] at h
      have h' : pid ∈ balIds bs := by
        rcases h with h | h
        · exact absurd h.symm hb
        · exact h
      simp only [addTo, if_neg hb, entriesSum_cons, ih h']
      ring

theorem debitFold_balIds (delta : ℚ) (l : List String) (bs : List BalanceEntry) :
    balIds (l.foldl (fun acc pid => if pid ∈ balIds acc then addTo acc pid delta else acc) bs)
      = balIds bs := by
  induction l generalizing bs with
  | nil => rfl
  | cons pid l ih =>
    simp only [List.foldl_cons]
    rw [ih]
    by_cases h : pid ∈ balIds bs
    · rw [if_pos h, addTo_balIds]
    · rw [if_neg h]

theorem debitFold_balNames (delta : ℚ) (l : List String) (bs : List BalanceEntry) :
    balNames (l.foldl (fun acc pid => if pid ∈ balIds acc then addTo acc pid delta else acc) bs)
      = balNames bs := by
  induction l generalizing bs with
  | nil => rfl
  | cons pid l ih =>
    simp only [List.foldl_cons]
    rw [ih]
    by_cases h : pid ∈ balIds bs
    · rw [if_pos h, addTo_balNames]
    · rw [if_neg h]

theorem debitFold_sum (delta : ℚ) (l : List String) (bs : List BalanceEntry)
    (h : ∀ pid ∈ l, pid ∈ balIds bs) :
    entriesSum (l.foldl (fun acc pid => if pid ∈ balIds acc then addTo acc pid delta else acc) bs)
      = entriesSum bs + l.length * delta := by
  induction l generalizing bs with
  | nil => simp
  | cons pid l ih =>
    have hmem : pid ∈ balIds bs := h pid (List.mem_cons_self _ _)
    simp only [List.foldl_cons, if_pos hmem]
    rw [ih (addTo bs pid delta)
        (fun q hq => by rw [addTo_balIds]; exact h q (List.mem_cons_of_mem _ hq)),
      addTo_sum _ _ _ hmem]
    push_cast [List.length_cons]
    ring

theorem applyExpense_balIds (bs : List BalanceEntry) (e : Expense) :
    balIds (applyExpense bs e) = balIds bs := by
  unfold applyExpense
  split
  · rw [debitFold_balIds]
    split
    · rw [addTo_balIds]
    · rfl
  · rfl

theorem applyExpense_balNames (bs : List BalanceEntry) (e : Expense) :
    balNames (applyExpense bs e) = balNames bs := by
  unfold applyExpense
  split
  · rw [debitFold_balNames]
    split
    · rw [addTo_balNames]
    · rfl
  · rfl

theorem applyExpense_sum (bs : List BalanceEntry) (e : Expense)
    (hp : e.paidById ∈ balIds bs) (hs : ∀ pid ∈ e.splitWithIds, pid ∈ balIds bs) :
    entriesSum (applyExpense bs e) = entriesSum bs := by
  unfold applyExpense
  by_cases hlen : 0 < e.splitWithIds.length
  · have hids : ∀ q ∈ e.splitWithIds, q ∈ balIds (addTo bs e.paidById e.amount) := by
      intro q hq
      rw [addTo_balIds]
      exact hs q hq
    rw [if_pos hlen, if_pos hp, debitFold_sum _ _ _ hids, addTo_sum _ _ _ hp]
    have hne : (e.splitWithIds.length : ℚ) ≠ 0 := by
      exact_mod_cast Nat.pos_iff_ne_zero.mp hlen
    field_simp
    ring
  · rw [if_neg hlen]

theorem foldl_applyExpense_balIds (es : List Expense) (bs : List BalanceEntry) :
    balIds (es.foldl applyExpense bs) = balIds bs := by
  induction es generalizing bs with
  | nil => rfl
  | cons e es ih => rw [List.foldl_cons, ih, applyExpense_balIds]

theorem foldl_applyExpense_balNames (es : List Expense) (bs : List BalanceEntry) :
    balNames (es.foldl applyExpense bs) = balNames bs := by
  induction es generalizing bs with
  | nil => rfl
  | cons e es ih => rw [List.foldl_cons, ih, applyExpense_balNames]

theorem computeBalances_balIds (ps : List Participant) (es : List Expense) :
    balIds (computeBalances ps es) = ps.map Participant.id := by
  unfold computeBalances
  rw [foldl_applyExpense_balIds]
  simp [balIds, List.map_map, Function.comp]

theorem computeBalances_balNames (ps : List Participant) (es : List Expense) :
    balNames (computeBalances ps es) = ps.map Participant.name := by
  unfold computeBalances
  rw [foldl_applyExpense_balNames]
  simp [balNames, List.map_map, Function.comp]

theorem initBalances_sum (ps : List Participant) :
    entriesSum (ps.map (fun p => ({ id := p.id, name := p.name, amount := 0 } : BalanceEntry))) = 0 := by
  induction ps with
  | nil => rfl
  | cons p ps ih => simpa [entriesSum_cons] using ih

theorem foldl_applyExpense_sum (es : List Expense) (bs : List BalanceEntry)
    (h : ∀ e ∈ es, e.paidById ∈ balIds bs ∧ ∀ pid ∈ e.splitWithIds, pid ∈ balIds bs) :
    entriesSum (es.foldl applyExpense bs) = entriesSum bs := by
  induction es generalizing bs with
  | nil => rfl
  | cons e es ih =>
    have he := h e (List.mem_cons_self _ _)
    rw [List.foldl_cons,
      ih (applyExpense bs e)
        (fun e' he' => by rw [applyExpense_balIds]; exact h e' (List.mem_cons_of_mem _ he')),
      applyExpense_sum _ _ he.1 he.2]

theorem computeBalances_sum (ps : List Participant) (es : List Expense)
    (h : ∀ e ∈ es, e.paidById ∈ ps.map Participant.id ∧
        ∀ pid ∈ e.splitWithIds, pid ∈ ps.map Participant.id) :
    entriesSum (computeBalances ps es) = 0 := by
  unfold computeBalances
  rw [foldl_applyExpense_sum, initBalances_sum]
  intro e he
  have hids : balIds (ps.map (fun p => ({ id := p.id, name := p.name, amount := 0 } : BalanceEntry)))
      = ps.map Participant.id := by
    simp [balIds, List.map_map, Function.comp]
  rw [hids]
  exact h e he

/-! ### Totals -/

theorem totalSpentOf_eq (es : List Expense) :
    totalSpentOf es = (es.map Expense.amount).sum := by
  have hgen : ∀ (l : List Expense) (a : ℚ),
      l.foldl (fun sum e => sum + e.amount) a = a + (l.map Expense.amount).sum := by
    intro l
    induction l with
    | nil => intro a; simp
    | cons e l ih =>
      intro a
      simp only [List.foldl_cons, List.map_cons, List.sum_cons, ih]
      ring
  simpa [totalSpentOf] using hgen es 0

/-! ### The sorts are permutations -/

theorem insertAsc_perm (x : BalanceEntry) (l : List BalanceEntry) :
    (insertAsc x l).Perm (x :: l) := by
  induction l with
  | nil => exact List.Perm.refl _
  | cons y l ih =>
    by_cases h : y.amount ≤ x.amount
    · rw [insertAsc, if_pos h]
      exact (ih.cons y).trans (List.Perm.swap x y l)
    · rw [insertAsc, if_neg h]

theorem insertDesc_perm (x : BalanceEntry) (l : List BalanceEntry) :
    (insertDesc x l).Perm (x :: l) := by
  induction l with
  | nil => exact List.Perm.refl _
  | cons y l ih =>
    by_cases h : x.amount ≤ y.amount
    · rw [insertDesc, if_pos h]
      exact (ih.cons y).trans (List.Perm.swap x y l)
    · rw [insertDesc, if_neg h]

theorem sortAsc_perm (l : List BalanceEntry) : (sortAsc l).Perm l := by
  have hgen : ∀ (l acc : List BalanceEntry),
      (l.foldl (fun acc x => insertAsc x acc) acc).Perm (acc ++ l) := by
    intro l
    induction l with
    | nil => intro acc; simp
    | cons x l ih =>
      intro acc
      rw [List.foldl_cons]
      refine (ih (insertAsc x acc)).trans ?_
      refine (List.Perm.append_right l (insertAsc_perm x acc)).trans ?_
      exact List.perm_middle.symm
  simpa [sortAsc] using hgen l []

theorem sortDesc_perm (l : List BalanceEntry) : (sortDesc l).Perm l := by
  have hgen : ∀ (l acc : List BalanceEntry),
      (l.foldl (fun acc x => insertDesc x acc) acc).Perm (acc ++ l) := by
    intro l
    induction l with
    | nil => intro acc; simp
    | cons x l ih =>
      intro acc
      rw [List.foldl_cons]
      refine (ih (insertDesc x acc)).trans ?_
      refine (List.Perm.append_right l (insertDesc_perm x acc)).trans ?_
      exact List.perm_middle.symm
  simpa [sortDesc] using hgen l []

/-! ### Unfolding lemmas for the resolution loop -/

theorem resolveLoop_zero (ds cs : List BalanceEntry) :
    resolveLoop 0 ds cs = ([], ds, cs) := rfl

theorem resolveLoop_nil_left (fuel : Nat) (cs : List BalanceEntry) :
    resolveLoop (fuel + 1) [] cs = ([], [], cs) := rfl

theorem resolveLoop_nil_right (fuel : Nat) (d : BalanceEntry) (ds : List BalanceEntry) :
    resolveLoop (fuel + 1) (d :: ds) [] = ([], d :: ds, []) := rfl

theorem resolveLoop_cons (fuel : Nat) (d c : BalanceEntry) (ds cs : List BalanceEntry) :
    resolveLoop (fuel + 1) (d :: ds) (c :: cs) =
      if 1/100 < loopAmount d c then
        (⟨d.name, c.name, round2 (loopAmount d c)⟩ ::
          (resolveLoop fuel (advanceDebtors d ds (loopAmount d c))
            (advanceCreditors c cs (loopAmount d c))).1,
          (resolveLoop fuel (advanceDebtors d ds (loopAmount d c))
            (advanceCreditors c cs (loopAmount d c))).2)
      else
        resolveLoop fuel (advanceDebtors d ds (loopAmount d c))
          (advanceCreditors c cs (loopAmount d c)) := rfl

theorem advanceDebtors_names (d : BalanceEntry) (ds : List BalanceEntry) (a : ℚ) :
    ∀ n ∈ balNames (advanceDebtors d ds a), n ∈ balNames (d :: ds) := by
  intro n hn
  unfold advanceDebtors at hn
  split at hn
  · exact List.mem_cons_of_mem _ hn
  · exact hn

theorem advanceCreditors_names (c : BalanceEntry) (cs : List BalanceEntry) (a : ℚ) :
    ∀ n ∈ balNames (advanceCreditors c cs a), n ∈ balNames (c :: cs) := by
  intro n hn
  unfold advanceCreditors at hn
  split at hn
  · exact List.mem_cons_of_mem _ hn
  · exact hn

theorem resolveLoop_names (fuel : Nat) (ds cs : List BalanceEntry) :
    ∀ t ∈ (resolveLoop fuel ds cs).1, t.from_ ∈ balNames ds ∧ t.to_ ∈ balNames cs := by
  induction fuel generalizing ds cs with
  | zero =>
    intro t ht
    rw [resolveLoop_zero] at ht
    simp at ht
  | succ fuel ih =>
    cases ds with
    | nil =>
      intro t ht
      rw [resolveLoop_nil_left] at ht
      simp at ht
    | cons d ds =>
      cases cs with
      | nil =>
        intro t ht
        rw [resolveLoop_nil_right] at ht
        simp at ht
      | cons c cs =>
        intro t ht
        rw [resolveLoop_cons] at ht
        by_cases hcond : 1/100 < loopAmount d c
        · rw [if_pos hcond] at ht
          rcases List.mem_cons.mp ht with h | h
          · rw [h]
            exact ⟨List.mem_cons_self _ _, List.mem_cons_self _ _⟩
          · obtain ⟨h1, h2⟩ := ih _ _ t h
            exact ⟨advanceDebtors_names _ _ _ _ h1, advanceCreditors_names _ _ _ _ h2⟩
        · rw [if_neg hcond] at ht
          obtain ⟨h1, h2⟩ := ih _ _ t ht
          exact ⟨advanceDebtors_names _ _ _ _ h1, advanceCreditors_names _ _ _ _ h2⟩

theorem resolveLoop_amounts (fuel : Nat) (ds cs : List BalanceEntry) :
    ∀ t ∈ (resolveLoop fuel ds cs).1, ∃ a : ℚ, 1/100 < a ∧ t.amount = round2 a := by
  induction fuel generalizing ds cs with
  | zero =>
    intro t ht
    rw [resolveLoop_zero] at ht
    simp at ht
  | succ fuel ih =>
    cases ds with
    | nil =>
      intro t ht
      rw [resolveLoop_nil_left] at ht
      simp at ht
    | cons d ds =>
      cases cs with
      | nil =>
        intro t ht
        rw [resolveLoop_nil_right] at ht
        simp at ht
      | cons c cs =>
        intro t ht
        rw [resolveLoop_cons] at ht
        by_cases hcond : 1/100 < loopAmount d c
        · rw [if_pos hcond] at ht
          rcases List.mem_cons.mp ht with h | h
          · exact ⟨loopAmount d c, hcond, by rw [h]⟩
          · exact ih _ _ t h
        · rw [if_neg hcond] at ht
          exact ih _ _ t ht

/-! ### Termination of the resolution loop -/

theorem resolveLoop_terminal (fuel : Nat) (ds cs : List BalanceEntry)
    (hd : ∀ d ∈ ds, d.amount ≤ 0) (hc : ∀ c ∈ cs, 0 ≤ c.amount)
    (hfuel : ds.length + cs.length ≤ fuel) :
    (resolveLoop fuel ds cs).2.1 = [] ∨ (resolveLoop fuel ds cs).2.2 = [] := by
  induction fuel generalizing ds cs with
  | zero =>
    left
    show ds = []
    exact List.length_eq_zero.mp (by omega)
  | succ fuel ih =>
    cases ds with
    | nil => exact Or.inl rfl
    | cons d ds =>
      cases cs with
      | nil => exact Or.inr rfl
      | cons c cs =>
        have hd0 : d.amount ≤ 0 := hd d (List.mem_cons_self _ _)
        have hc0 : 0 ≤ c.amount := hc c (List.mem_cons_self _ _)
        have habs : |d.amount| = -d.amount := abs_of_nonpos hd0
        have hds' : ∀ x ∈ ds, x.amount ≤ 0 := fun x hx => hd x (List.mem_cons_of_mem _ hx)
        have hcs' : ∀ x ∈ cs, 0 ≤ x.amount := fun x hx => hc x (List.mem_cons_of_mem _ hx)
        rcases le_total |d.amount| c.amount with hmin | hmin
        · have hamount : loopAmount d c = |d.amount| := min_eq_left hmin
          have hadvD : advanceDebtors d ds (loopAmount d c) = ds := by
            unfold advanceDebtors
            rw [if_pos]
            rw [hamount, habs]
            norm_num
          have hlenC : (advanceCreditors c cs (loopAmount d c)).length ≤ cs.length + 1 := by
            unfold advanceCreditors
            split
            · omega
            · simp
          have hcs'' : ∀ x ∈ advanceCreditors c cs (loopAmount d c), 0 ≤ x.amount := by
            intro x hx
            unfold advanceCreditors at hx
            split at hx
            · exact hcs' x hx
            · rcases List.mem_cons.mp hx with h | h
              · rw [h]
                have : loopAmount d c ≤ c.amount := min_le_right _ _
                simp only
                linarith
              · exact hcs' x h
          have hrec := ih ds (advanceCreditors c cs (loopAmount d c)) hds' hcs''
            (by simp only [List.length_cons] at hfuel; omega)
          rw [resolveLoop_cons]
          by_cases hcond : 1/100 < loopAmount d c
          · rw [if_pos hcond, hadvD]
            exact hrec
          · rw [if_neg hcond, hadvD]
            exact hrec
        · have hamount : loopAmount d c = c.amount := min_eq_right hmin
          have hadvC : advanceCreditors c cs (loopAmount d c) = cs := by
            unfold advanceCreditors
            rw [if_pos]
            rw [hamount]
            norm_num
          have hds'' : ∀ x ∈ advanceDebtors d ds (loopAmount d c), x.amount ≤ 0 := by
            intro x hx
            unfold advanceDebtors at hx
            split at hx
            · exact hds' x hx
            · rcases List.mem_cons.mp hx with h | h
              · rw [h]
                simp only
                rw [hamount]
                linarith [abs_of_nonpos hd0, hmin]
              · exact hds' x h
          have hlenD : (advanceDebtors d ds (loopAmount d c)).length ≤ ds.length + 1 := by
            unfold advanceDebtors
            split
            · omega
            · simp
          have hrec := ih (advanceDebtors d ds (loopAmount d c)) cs hds'' hcs'
            (by simp only [List.length_cons] at hfuel; omega)
          rw [resolveLoop_cons]
          by_cases hcond : 1/100 < loopAmount d c
          · rw [if_pos hcond, hadvC]
            exact hrec
          · rw [if_neg hcond, hadvC]
            exact hrec

/-! ### Partition membership and rounding bounds -/

theorem mem_debtorsOf {b : BalanceEntry} {bs : List BalanceEntry} (h : b ∈ debtorsOf bs) :
    b ∈ bs ∧ b.amount < -(1/100) := by
  rw [debtorsOf, List.mem_filter] at h
  exact ⟨h.1, of_decide_eq_true h.2⟩

theorem mem_creditorsOf {b : BalanceEntry} {bs : List BalanceEntry} (h : b ∈ creditorsOf bs) :
    b ∈ bs ∧ 1/100 < b.amount := by
  rw [creditorsOf, List.mem_filter] at h
  exact ⟨h.1, of_decide_eq_true h.2⟩

theorem round2_ge (a : ℚ) (h : 1/100 < a) : 1/100 ≤ round2 a := by
  unfold round2
  rw [round_eq]
  have h1 : (1 : ℤ) ≤ ⌊a * 100 + 1/2⌋ := by
    rw [Int.le_floor]
    push_cast
    nlinarith
  have h2 : (1 : ℚ) ≤ (⌊a * 100 + 1/2⌋ : ℚ) := by exact_mod_cast h1
  linarith

theorem round2_mul_100_int (a : ℚ) : ∃ k : ℤ, round2 a = (k : ℚ)/100 :=
  ⟨round (a * 100), rfl⟩

/-! ### Claim theorems -/

/-- C1: for every list of expenses in which every paidBy identifier and every
member of every splitWith set is a known participant of the budget, the
per-participant balances computed by the Balance Aggregator sum to 0 exactly
(over exact rational arithmetic), regardless of the order of the expenses. -/
theorem zero_sum_invariant (ps : List Participant) (es : List Expense)
    (h : ∀ e ∈ es, e.paidById ∈ ps.map Participant.id ∧
        ∀ pid ∈ e.splitWithIds, pid ∈ ps.map Participant.id) :
    entriesSum (computeBalances ps es) = 0 ∧
    ∀ es', es'.Perm es → entriesSum (computeBalances ps es') = 0 :=
  ⟨computeBalances_sum ps es h,
    fun es' hperm => computeBalances_sum ps es' (fun e he => h e (hperm.mem_iff.mp he))⟩

/-- C1 witness: the zero-sum theorem applied to a concrete two-participant
budget with one fully-split expense. -/
theorem zero_sum_invariant_witness :
    entriesSum (computeBalances [⟨"a", "A"⟩, ⟨"b", "B"⟩] [⟨10, "a", ["a", "b"]⟩]) = 0 ∧
    ∀ es', es'.Perm [⟨10, "a", ["a", "b"]⟩] →
      entriesSum (computeBalances [⟨"a", "A"⟩, ⟨"b", "B"⟩] es') = 0 :=
  zero_sum_invariant [⟨"a", "A"⟩, ⟨"b", "B"⟩] [⟨10, "a", ["a", "b"]⟩] (by decide)

theorem applyExpense_empty_split (bs : List BalanceEntry) (e : Expense)
    (h : e.splitWithIds = []) : applyExpense bs e = bs := by
  unfold applyExpense
  rw [h]
  simp

/-- C3 counterexample: for the expense `{amount: 50, paidBy: A, splitWith: []}`
the aggregator does NOT credit the payer: the guard on a non-empty split set
encloses the credit as well, so the balance stays 0 and the zero-sum
invariant is preserved, contradicting the claim that only the debit step is
skipped and the payer stays fully credited. -/
theorem empty_split_no_credit :
    computeBalances [⟨"a", "A"⟩] [⟨50, "a", []⟩] = [⟨"a", "A", 0⟩] ∧
    entriesSum (computeBalances [⟨"a", "A"⟩] [⟨50, "a", []⟩]) = 0 ∧
    computeBalances [⟨"a", "A"⟩] [⟨50, "a", []⟩] ≠ [⟨"a", "A", 50⟩] := by
  refine ⟨?_, ?_, ?_⟩ <;> norm_num [computeBalances, applyExpense, entriesSum]

/-- C3 (amended): an expense whose splitWith set is empty is skipped entirely
by the Balance Aggregator — neither the credit nor the debit is applied, the
payer is not credited, and the zero-sum invariant is preserved. -/
theorem empty_split_skipped (ps : List Participant) (es1 es2 : List Expense) (e : Expense)
    (h : e.splitWithIds = []) :
    computeBalances ps (es1 ++ e :: es2) = computeBalances ps (es1 ++ es2) := by
  unfold computeBalances
  rw [List.foldl_append, List.foldl_append, List.foldl_cons, applyExpense_empty_split _ _ h]

/-- C3 witness: the amended theorem applied to the concrete empty-split
expense of the counterexample. -/
theorem empty_split_skipped_witness :
    computeBalances [⟨"a", "A"⟩] ([] ++ (⟨50, "a", []⟩ : Expense) :: []) =
      computeBalances [⟨"a", "A"⟩] ([] ++ []) :=
  empty_split_skipped [⟨"a", "A"⟩] [] [] ⟨50, "a", []⟩ rfl

/-- C4 counterexample: with participants D and C and the single expense
`{amount: 0.024, paidBy: C, splitWith: [C, D]}` the matched unrounded amount
is 0.012, which passes the `> 0.01` guard but rounds down to exactly 0.01,
so the emitted amount is not strictly greater than epsilon. -/
theorem transfer_amount_exactly_epsilon :
    (getBudgetResponse 0 [⟨"d", "D"⟩, ⟨"c", "C"⟩] [⟨3/125, "c", ["c", "d"]⟩]).debts =
      [⟨"D", "C", 1/100⟩] ∧
    ¬ (∀ t ∈ (getBudgetResponse 0 [⟨"d", "D"⟩, ⟨"c", "C"⟩] [⟨3/125, "c", ["c", "d"]⟩]).debts,
        1/100 < t.amount) := by
  have hdebts : (getBudgetResponse 0 [⟨"d", "D"⟩, ⟨"c", "C"⟩] [⟨3/125, "c", ["c", "d"]⟩]).debts =
      [⟨"D", "C", 1/100⟩] := by
    norm_num +decide [getBudgetResponse, resolveDebts, computeBalances, applyExpense, addTo,
      balIds, debtorsOf, creditorsOf, sortAsc, sortDesc, insertAsc, insertDesc, resolveLoop,
      loopAmount, advanceDebtors, advanceCreditors, round2, round_eq, inf_eq_min, min_def, abs_eq_max_neg, max_def]
  refine ⟨hdebts, fun hall => ?_⟩
  have hlt := hall ⟨"D", "C", 1/100⟩ (by rw [hdebts]; exact List.mem_cons_self _ _)
  norm_num at hlt

/-- C4 (amended): every transfer placed in the emitted debts list has an
amount that is at least epsilon = 0.01 (the unrounded matched amount is
strictly greater than epsilon, but rounding to 2 decimal places can bring
the emitted field down to exactly epsilon) and is an exact multiple of 0.01,
i.e. a 2-decimal value. -/
theorem transfer_amounts_rounded (tb : ℚ) (ps : List Participant) (es : List Expense) :
    ∀ t ∈ (getBudgetResponse tb ps es).debts,
      1/100 ≤ t.amount ∧ ∃ k : ℤ, t.amount = (k : ℚ)/100 := by
  intro t ht
  obtain ⟨a, ha, hta⟩ := resolveLoop_amounts _ _ _ t ht
  exact ⟨by rw [hta]; exact round2_ge a ha, by rw [hta]; exact round2_mul_100_int a⟩

/-- C4 witness: the amended theorem applied to a concrete scenario whose
single emitted transfer has amount 1. -/
theorem transfer_amounts_rounded_witness :
    (1 : ℚ)/100 ≤ (1 : ℚ) ∧ ∃ k : ℤ, (1 : ℚ) = (k : ℚ)/100 :=
  transfer_amounts_rounded 10 [⟨"a", "A"⟩, ⟨"b", "B"⟩] [⟨2, "a", ["a", "b"]⟩] ⟨"B", "A", 1⟩
    (by norm_num +decide [getBudgetResponse, resolveDebts, computeBalances, applyExpense, addTo,
      balIds, debtorsOf, creditorsOf, sortAsc, sortDesc, insertAsc, insertDesc, resolveLoop,
      loopAmount, advanceDebtors, advanceCreditors, round2, round_eq, inf_eq_min, min_def, abs_eq_max_neg, max_def])

/-- C5: when participant display names are unique within the budget, no
emitted transfer has its from field equal to its to field, because a
participant cannot be both a debtor (balance below -epsilon) and a creditor
(balance above epsilon). -/
theorem no_self_transfer (tb : ℚ) (ps : List Participant) (es : List Expense)
    (hnames : (ps.map Participant.name).Nodup) :
    ∀ t ∈ (getBudgetResponse tb ps es).debts, t.from_ ≠ t.to_ := by
  intro t ht hfromto
  have hnodup : ((computeBalances ps es).map (fun b => b.name)).Nodup := by
    have hn := computeBalances_balNames ps es
    rw [balNames] at hn
    rw [hn]
    exact hnames
  obtain ⟨h1, h2⟩ := resolveLoop_names
    ((sortAsc (debtorsOf (computeBalances ps es))).length +
      (sortDesc (creditorsOf (computeBalances ps es))).length)
    (sortAsc (debtorsOf (computeBalances ps es)))
    (sortDesc (creditorsOf (computeBalances ps es))) t ht
  rw [balNames] at h1 h2
  have h1' : t.from_ ∈ (debtorsOf (computeBalances ps es)).map (fun b => b.name) :=
    ((sortAsc_perm _).map _).mem_iff.mp h1
  have h2' : t.to_ ∈ (creditorsOf (computeBalances ps es)).map (fun b => b.name) :=
    ((sortDesc_perm _).map _).mem_iff.mp h2
  obtain ⟨d, hd, hdname⟩ := List.mem_map.mp h1'
  obtain ⟨c, hc, hcname⟩ := List.mem_map.mp h2'
  obtain ⟨hdmem, hdlt⟩ := mem_debtorsOf hd
  obtain ⟨hcmem, hcgt⟩ := mem_creditorsOf hc
  have hdc : d = c :=
    List.inj_on_of_nodup_map hnodup hdmem hcmem (hdname.trans (hfromto.trans hcname.symm))
  rw [hdc] at hdlt
  linarith

/-- C5 witness: the no-self-transfer theorem applied to a concrete scenario
with one emitted transfer from B to A. -/
theorem no_self_transfer_witness :
    (⟨"B", "A", 1⟩ : Transfer) ∈
      (getBudgetResponse 10 [⟨"a", "A"⟩, ⟨"b", "B"⟩] [⟨2, "a", ["a", "b"]⟩]).debts ∧
    (⟨"B", "A", (1 : ℚ)⟩ : Transfer).from_ ≠ (⟨"B", "A", (1 : ℚ)⟩ : Transfer).to_ := by
  have hmem : (⟨"B", "A", 1⟩ : Transfer) ∈
      (getBudgetResponse 10 [⟨"a", "A"⟩, ⟨"b", "B"⟩] [⟨2, "a", ["a", "b"]⟩]).debts := by
    norm_num +decide [getBudgetResponse, resolveDebts, computeBalances, applyExpense, addTo,
      balIds, debtorsOf, creditorsOf, sortAsc, sortDesc, insertAsc, insertDesc, resolveLoop,
      loopAmount, advanceDebtors, advanceCreditors, round2, round_eq, inf_eq_min, min_def, abs_eq_max_neg, max_def]
  exact ⟨hmem, no_self_transfer 10 [⟨"a", "A"⟩, ⟨"b", "B"⟩] [⟨2, "a", ["a", "b"]⟩]
    (by decide) _ hmem⟩

/-- C6: for three participants A, B, C and the single expense
`{amount: 90, paidBy: A, splitWith: [A, B, C]}`, the computed balances are
A: +60, B: -30, C: -30, and the emitted transfers are B pays A 30 and
C pays A 30, so the total transferred to A is 60. -/
theorem single_expense_scenario :
    computeBalances [⟨"a", "A"⟩, ⟨"b", "B"⟩, ⟨"c", "C"⟩] [⟨90, "a", ["a", "b", "c"]⟩] =
      [⟨"a", "A", 60⟩, ⟨"b", "B", -30⟩, ⟨"c", "C", -30⟩] ∧
    resolveDebts (computeBalances [⟨"a", "A"⟩, ⟨"b", "B"⟩, ⟨"c", "C"⟩]
        [⟨90, "a", ["a", "b", "c"]⟩]) = [⟨"B", "A", 30⟩, ⟨"C", "A", 30⟩] ∧
    receivedTotal "A" (resolveDebts (computeBalances [⟨"a", "A"⟩, ⟨"b", "B"⟩, ⟨"c", "C"⟩]
        [⟨90, "a", ["a", "b", "c"]⟩])) = 60 := by
  refine ⟨?_, ?_, ?_⟩ <;>
    norm_num +decide [receivedTotal, getBudgetResponse, resolveDebts, computeBalances,
      applyExpense, addTo, balIds, debtorsOf, creditorsOf, sortAsc, sortDesc, insertAsc,
      insertDesc, resolveLoop, loopAmount, advanceDebtors, advanceCreditors, round2, round_eq, inf_eq_min, min_def, abs_eq_max_neg, max_def]

/-- C7: the response reports totalSpent as the sum of all expense amounts and
remaining as totalBudget minus totalSpent; a negative remaining (overspend)
is reported as a plain value, as in the concrete case totalBudget 100,
totalSpent 150, remaining -50. -/
theorem totals_reported :
    (∀ (totalBudget : ℚ) (ps : List Participant) (es : List Expense),
      (getBudgetResponse totalBudget ps es).totalSpent = (es.map Expense.amount).sum ∧
      (getBudgetResponse totalBudget ps es).remaining =
        totalBudget - (es.map Expense.amount).sum) ∧
    (getBudgetResponse 100 [⟨"a", "A"⟩] [⟨150, "a", ["a"]⟩]).remaining = -50 := by
  constructor
  · intro tb ps es
    constructor
    · exact totalSpentOf_eq es
    · show tb - totalSpentOf es = tb - (es.map Expense.amount).sum
      rw [totalSpentOf_eq]
  · norm_num [getBudgetResponse, totalSpentOf]

/-- C8: the settlement computation is a pure function of its input, so two
runs on identical participants, expenses and totalBudget produce identical
responses, including the order of the debts list. -/
theorem settlement_deterministic (tb tb' : ℚ) (ps ps' : List Participant)
    (es es' : List Expense) (h1 : tb = tb') (h2 : ps = ps') (h3 : es = es') :
    getBudgetResponse tb ps es = getBudgetResponse tb' ps' es' := by
  subst h1
  subst h2
  subst h3
  rfl

/-- C8 witness: determinism instantiated at a concrete input. -/
theorem settlement_deterministic_witness :
    getBudgetResponse 100 [⟨"a", "A"⟩] [⟨5, "a", ["a"]⟩] =
      getBudgetResponse 100 [⟨"a", "A"⟩] [⟨5, "a", ["a"]⟩] :=
  settlement_deterministic 100 100 [⟨"a", "A"⟩] [⟨"a", "A"⟩] [⟨5, "a", ["a"]⟩]
    [⟨5, "a", ["a"]⟩] rfl rfl rfl

/-- C9: the debt-resolution while loop terminates on every run the program
performs: starting from the classified debtor and creditor lists, fuel equal
to the total list length makes the loop empty at least one of the two lists,
because each iteration transfers the exact minimum of the two magnitudes and
so retires at least one list head. -/
theorem resolution_loop_terminates (bs : List BalanceEntry) :
    (resolveLoop ((sortAsc (debtorsOf bs)).length + (sortDesc (creditorsOf bs)).length)
        (sortAsc (debtorsOf bs)) (sortDesc (creditorsOf bs))).2.1 = [] ∨
    (resolveLoop ((sortAsc (debtorsOf bs)).length + (sortDesc (creditorsOf bs)).length)
        (sortAsc (debtorsOf bs)) (sortDesc (creditorsOf bs))).2.2 = [] := by
  apply resolveLoop_terminal
  · intro d hd
    have hd' : d ∈ debtorsOf bs := (sortAsc_perm _).mem_iff.mp hd
    have hlt := (mem_debtorsOf hd').2
    linarith
  · intro c hc
    have hc' : c ∈ creditorsOf bs := (sortDesc_perm _).mem_iff.mp hc
    have hgt := (mem_creditorsOf hc').2
    linarith
  · exact le_refl _

/-- C10: the delete-expense handler performs no ownership or membership
check: its outcome depends only on the stored expenses and the expense id,
not on the authenticated caller or on the trip named in the URL, so any two
authenticated callers issuing the same delete request get the same result. -/
theorem delete_expense_no_ownership_check (db : List StoredExpense)
    (tripId tripId' expenseId userId userId' : String) :
    deleteExpenseHandler db tripId expenseId userId =
      deleteExpenseHandler db tripId' expenseId userId' := rfl

/-! ### Accounting for applied transfers -/

theorem paidTotal_nil (n : String) : paidTotal n [] = 0 := rfl

theorem receivedTotal_nil (n : String) : receivedTotal n [] = 0 := rfl

theorem paidTotal_cons (n : String) (t : Transfer) (ts : List Transfer) :
    paidTotal n (t :: ts) = (if t.from_ = n then t.amount else 0) + paidTotal n ts := by
  by_cases h : t.from_ = n <;> simp [paidTotal, List.filter_cons, h]

theorem receivedTotal_cons (n : String) (t : Transfer) (ts : List Transfer) :
    receivedTotal n (t :: ts) = (if t.to_ = n then t.amount else 0) + receivedTotal n ts := by
  by_cases h : t.to_ = n <;> simp [receivedTotal, List.filter_cons, h]

theorem paidTotal_eq_zero {n : String} {ts : List Transfer} {L : List String}
    (hsub : ∀ t ∈ ts, t.from_ ∈ L) (hn : n ∉ L) : paidTotal n ts = 0 := by
  induction ts with
  | nil => rfl
  | cons t ts ih =>
    have hne : ¬ t.from_ = n := by
      intro heq
      exact hn (heq ▸ hsub t (List.mem_cons_self _ _))
    rw [paidTotal_cons, if_neg hne, ih (fun t' ht' => hsub t' (List.mem_cons_of_mem _ ht'))]
    ring

theorem receivedTotal_eq_zero {n : String} {ts : List Transfer} {L : List String}
    (hsub : ∀ t ∈ ts, t.to_ ∈ L) (hn : n ∉ L) : receivedTotal n ts = 0 := by
  induction ts with
  | nil => rfl
  | cons t ts ih =>
    have hne : ¬ t.to_ = n := by
      intro heq
      exact hn (heq ▸ hsub t (List.mem_cons_self _ _))
    rw [receivedTotal_cons, if_neg hne, ih (fun t' ht' => hsub t' (List.mem_cons_of_mem _ ht'))]
    ring

theorem entriesSum_nonneg {cs : List BalanceEntry} (h : ∀ x ∈ cs, 0 ≤ x.amount) :
    0 ≤ entriesSum cs := by
  induction cs with
  | nil => simp [entriesSum]
  | cons c cs ih =>
    rw [entriesSum_cons]
    have h1 := h c (List.mem_cons_self _ _)
    have h2 := ih (fun x hx => h x (List.mem_cons_of_mem _ hx))
    linarith

theorem entriesSum_nonpos {ds : List BalanceEntry} (h : ∀ x ∈ ds, x.amount ≤ 0) :
    entriesSum ds ≤ 0 := by
  induction ds with
  | nil => simp [entriesSum]
  | cons d ds ih =>
    rw [entriesSum_cons]
    have h1 := h d (List.mem_cons_self _ _)
    have h2 := ih (fun x hx => h x (List.mem_cons_of_mem _ hx))
    linarith

theorem entriesSum_pos_eq_nil {cs : List BalanceEntry}
    (h : ∀ x ∈ cs, 0 < x.amount) (hsum : entriesSum cs = 0) : cs = [] := by
  cases cs with
  | nil => rfl
  | cons c cs =>
    exfalso
    have hc := h c (List.mem_cons_self _ _)
    have hrest : 0 ≤ entriesSum cs :=
      entriesSum_nonneg (fun x hx => (h x (List.mem_cons_of_mem _ hx)).le)
    rw [entriesSum_cons] at hsum
    linarith

theorem entriesSum_neg_eq_nil {ds : List BalanceEntry}
    (h : ∀ x ∈ ds, x.amount < 0) (hsum : entriesSum ds = 0) : ds = [] := by
  cases ds with
  | nil => rfl
  | cons d ds =>
    exfalso
    have hd := h d (List.mem_cons_self _ _)
    have hrest : entriesSum ds ≤ 0 :=
      entriesSum_nonpos (fun x hx => (h x (List.mem_cons_of_mem _ hx)).le)
    rw [entriesSum_cons] at hsum
    linarith

theorem fifty_ge {x : ℚ} (k : ℤ) (hk : x = (k : ℚ)/50) (hpos : 0 < x) : 1/50 ≤ x := by
  subst hk
  have hkq : (0 : ℚ) < (k : ℚ) := by nlinarith
  have hkz : (0 : ℤ) < k := by exact_mod_cast hkq
  have hk1 : (1 : ℤ) ≤ k := hkz
  have hk1q : (1 : ℚ) ≤ (k : ℚ) := by exact_mod_cast hk1
  linarith

theorem fifty_le_neg {x : ℚ} (k : ℤ) (hk : x = (k : ℚ)/50) (hneg : x < 0) : x ≤ -(1/50) := by
  subst hk
  have hkq : (k : ℚ) < 0 := by nlinarith
  have hkz : k < (0 : ℤ) := by exact_mod_cast hkq
  have hk1 : k ≤ (-1 : ℤ) := by omega
  have hk1q : (k : ℚ) ≤ (-1 : ℚ) := by exact_mod_cast hk1
  linarith

theorem round2_of_fifty (a : ℚ) (k : ℤ) (hk : a = (k : ℚ)/50) : round2 a = a := by
  subst hk
  unfold round2
  have h100 : (k : ℚ)/50 * 100 = ((2 * k : ℤ) : ℚ) := by push_cast; ring
  rw [h100, round_intCast]
  push_cast
  ring

theorem addToByName_balNames (n : String) (delta : ℚ) (bs : List BalanceEntry) :
    balNames (addToByName bs n delta) = balNames bs := by
  induction bs with
  | nil => rfl
  | cons b bs ih =>
    by_cases h : b.name = n
    · simp [addToByName, h, balNames]
    · simpa [addToByName, h, balNames] using ih

theorem addToByName_map (bs : List BalanceEntry) (n : String) (delta : ℚ)
    (hnodup : (balNames bs).Nodup) :
    addToByName bs n delta =
      bs.map (fun b => if b.name = n then { b with amount := b.amount + delta } else b) := by
  induction bs with
  | nil => rfl
  | cons b bs ih =>
    rw [balNames_cons] at hnodup
    have h1 := (List.nodup_cons.mp hnodup).1
    have h2 := (List.nodup_cons.mp hnodup).2
    by_cases h : b.name = n
    · rw [addToByName, if_pos h, List.map_cons, if_pos h]
      congr 1
      have hid : ∀ x ∈ bs,
          (if x.name = n then ({ x with amount := x.amount + delta } : BalanceEntry) else x) = x := by
        intro x hx
        rw [if_neg]
        intro hxn
        apply h1
        rw [← hxn] at h
        rw [h]
        exact List.mem_map_of_mem _ hx
      rw [List.map_congr_left hid, List.map_id']
    · rw [addToByName, if_neg h, List.map_cons, if_neg h, ih h2]

theorem applyTransfer_balNames (bs : List BalanceEntry) (t : Transfer) :
    balNames (applyTransfer bs t) = balNames bs := by
  unfold applyTransfer
  rw [addToByName_balNames, addToByName_balNames]

theorem applyTransfer_map (bs : List BalanceEntry) (t : Transfer)
    (hnodup : (balNames bs).Nodup) :
    applyTransfer bs t = bs.map (fun b =>
      { b with amount := b.amount + (if b.name = t.from_ then t.amount else 0)
          - (if b.name = t.to_ then t.amount else 0) }) := by
  unfold applyTransfer
  have hnodup2 : (balNames (addToByName bs t.from_ t.amount)).Nodup := by
    rw [addToByName_balNames]
    exact hnodup
  rw [addToByName_map _ _ _ hnodup2, addToByName_map _ _ _ hnodup, List.map_map]
  apply List.map_congr_left
  intro b hb
  simp only [Function.comp]
  by_cases hb1 : b.name = t.from_ <;> by_cases hb2 : b.name = t.to_
  · rw [show (if b.name = t.from_ then t.amount else (0:ℚ)) = t.amount from if_pos hb1,
      show (if b.name = t.to_ then t.amount else (0:ℚ)) = t.amount from if_pos hb2,
      if_pos hb1]
    dsimp only
    rw [if_pos hb2]
    exact congrArg (fun a => ({ b with amount := a } : BalanceEntry)) (by ring)
  · rw [show (if b.name = t.from_ then t.amount else (0:ℚ)) = t.amount from if_pos hb1,
      show (if b.name = t.to_ then t.amount else (0:ℚ)) = 0 from if_neg hb2,
      if_pos hb1]
    dsimp only
    rw [if_neg hb2]
    exact congrArg (fun a => ({ b with amount := a } : BalanceEntry)) (by ring)
  · rw [show (if b.name = t.from_ then t.amount else (0:ℚ)) = 0 from if_neg hb1,
      show (if b.name = t.to_ then t.amount else (0:ℚ)) = t.amount from if_pos hb2,
      if_neg hb1, if_pos hb2]
    exact congrArg (fun a => ({ b with amount := a } : BalanceEntry)) (by ring)
  · rw [show (if b.name = t.from_ then t.amount else (0:ℚ)) = 0 from if_neg hb1,
      show (if b.name = t.to_ then t.amount else (0:ℚ)) = 0 from if_neg hb2,
      if_neg hb1, if_neg hb2]
    simp

theorem applyDebts_balNames (bs : List BalanceEntry) (ts : List Transfer) :
    balNames (applyDebts bs ts) = balNames bs := by
  induction ts generalizing bs with
  | nil => rfl
  | cons t ts ih =>
    show balNames (applyDebts (applyTransfer bs t) ts) = _
    rw [ih, applyTransfer_balNames]

theorem applyDebts_map (bs : List BalanceEntry) (ts : List Transfer)
    (hnodup : (balNames bs).Nodup) :
    applyDebts bs ts = bs.map (fun b =>
      { b with amount := b.amount + paidTotal b.name ts - receivedTotal b.name ts }) := by
  induction ts generalizing bs with
  | nil =>
    show bs = _
    have hid : ∀ b ∈ bs,
        ({ b with amount := b.amount + paidTotal b.name [] - receivedTotal b.name [] } :
          BalanceEntry) = b := by
      intro b hb
      rw [paidTotal_nil, receivedTotal_nil]
      simp
    rw [List.map_congr_left hid, List.map_id']
  | cons t ts ih =>
    show applyDebts (applyTransfer bs t) ts = _
    have hnodup2 : (balNames (applyTransfer bs t)).Nodup := by
      rw [applyTransfer_balNames]
      exact hnodup
    rw [ih _ hnodup2, applyTransfer_map _ _ hnodup, List.map_map]
    apply List.map_congr_left
    intro b hb
    simp only [Function.comp]
    rw [paidTotal_cons, receivedTotal_cons]
    have e1 : (if t.from_ = b.name then t.amount else 0)
        = (if b.name = t.from_ then t.amount else 0) := if_congr eq_comm rfl rfl
    have e2 : (if t.to_ = b.name then t.amount else 0)
        = (if b.name = t.to_ then t.amount else 0) := if_congr eq_comm rfl rfl
    rw [e1, e2]
    congr 1
    ring

theorem paidTotal_cons_mk (n nf nt : String) (a : ℚ) (ts : List Transfer) :
    paidTotal n (⟨nf, nt, a⟩ :: ts) = (if nf = n then a else 0) + paidTotal n ts :=
  paidTotal_cons n ⟨nf, nt, a⟩ ts

theorem receivedTotal_cons_mk (n nf nt : String) (a : ℚ) (ts : List Transfer) :
    receivedTotal n (⟨nf, nt, a⟩ :: ts) = (if nt = n then a else 0) + receivedTotal n ts :=
  receivedTotal_cons n ⟨nf, nt, a⟩ ts

/-- When every classified balance is a whole multiple of 1/50 = 2 epsilon and
the classified lists are exactly zero-sum, the loop pays out every debtor
balance in full and collects every creditor balance in full: the emitted
transfers account exactly for each participant, with no rounding loss and
no sub-epsilon residue. -/
theorem resolveLoop_settles (fuel : Nat) (ds cs : List BalanceEntry)
    (hd : ∀ x ∈ ds, x.amount ≤ -(1/50) ∧ ∃ k : ℤ, x.amount = (k : ℚ)/50)
    (hc : ∀ x ∈ cs, 1/50 ≤ x.amount ∧ ∃ k : ℤ, x.amount = (k : ℚ)/50)
    (hsum : entriesSum ds + entriesSum cs = 0)
    (hnodup : (balNames ds ++ balNames cs).Nodup)
    (hfuel : ds.length + cs.length ≤ fuel) :
    (∀ x ∈ ds, paidTotal x.name (resolveLoop fuel ds cs).1 = -x.amount ∧
      receivedTotal x.name (resolveLoop fuel ds cs).1 = 0) ∧
    (∀ x ∈ cs, receivedTotal x.name (resolveLoop fuel ds cs).1 = x.amount ∧
      paidTotal x.name (resolveLoop fuel ds cs).1 = 0) := by
  induction fuel generalizing ds cs with
  | zero =>
    have hds : ds = [] := List.length_eq_zero.mp (by omega)
    have hcs : cs = [] := List.length_eq_zero.mp (by omega)
    subst hds
    subst hcs
    simp
  | succ fuel ih =>
    cases ds with
    | nil =>
      have h0 : entriesSum ([] : List BalanceEntry) = 0 := rfl
      have hsum2 : entriesSum cs = 0 := by linarith [hsum]
      have hcs : cs = [] := entriesSum_pos_eq_nil
        (fun x hx => lt_of_lt_of_le (by norm_num) (hc x hx).1) hsum2
      subst hcs
      simp
    | cons d ds =>
      cases cs with
      | nil =>
        exfalso
        have h0 : entriesSum ([] : List BalanceEntry) = 0 := rfl
        have hsum2 : entriesSum (d :: ds) = 0 := by linarith [hsum]
        have hnil : d :: ds = [] := entriesSum_neg_eq_nil
          (fun x hx => lt_of_le_of_lt (hd x hx).1 (by norm_num)) hsum2
        exact List.cons_ne_nil _ _ hnil
      | cons c cs =>
        obtain ⟨hd0, kd, hkd⟩ := hd d (List.mem_cons_self _ _)
        obtain ⟨hc0, kc, hkc⟩ := hc c (List.mem_cons_self _ _)
        have habs : |d.amount| = -d.amount := abs_of_nonpos (by linarith)
        have hcondpos : 1/100 < loopAmount d c := by
          unfold loopAmount
          rw [habs]
          exact lt_min (by linarith) (by linarith)
        have hnd : ((d.name :: balNames ds) ++ (c.name :: balNames cs)).Nodup := by
          rw [balNames_cons, balNames_cons] at hnodup
          exact hnodup
        obtain ⟨hndL, hndR, hdisj⟩ := List.nodup_append.mp hnd
        have hd_ds : d.name ∉ balNames ds := (List.nodup_cons.mp hndL).1
        have hc_cs : c.name ∉ balNames cs := (List.nodup_cons.mp hndR).1
        have hd_R : d.name ∉ c.name :: balNames cs := hdisj (List.mem_cons_self _ _)
        have hc_L : c.name ∉ d.name :: balNames ds :=
          fun hmem => hdisj hmem (List.mem_cons_self _ _)
        have hdc_ne : d.name ≠ c.name := fun h =>
          hd_R (by rw [h]; exact List.mem_cons_self _ _)
        have hcd_ne : c.name ≠ d.name := fun h => hdc_ne h.symm
        have hname_ds : ∀ x ∈ ds, x.name ∈ balNames ds :=
          fun x hx => List.mem_map_of_mem _ hx
        have hname_cs : ∀ x ∈ cs, x.name ∈ balNames cs :=
          fun x hx => List.mem_map_of_mem _ hx
        have hd' : ∀ x ∈ ds, x.amount ≤ -(1/50) ∧ ∃ k : ℤ, x.amount = (k : ℚ)/50 :=
          fun x hx => hd x (List.mem_cons_of_mem _ hx)
        have hc' : ∀ x ∈ cs, 1/50 ≤ x.amount ∧ ∃ k : ℤ, x.amount = (k : ℚ)/50 :=
          fun x hx => hc x (List.mem_cons_of_mem _ hx)
        rw [entriesSum_cons, entriesSum_cons] at hsum
        rcases lt_trichotomy |d.amount| c.amount with hlt | heq | hgt
        · -- the debtor is fully paid off and retires; the creditor keeps a remainder
          have hamt : loopAmount d c = -d.amount := by
            unfold loopAmount
            rw [min_eq_left hlt.le]
            exact habs
          have hlt2 : -d.amount < c.amount := by rw [habs] at hlt; exact hlt
          have hadvD : advanceDebtors d ds (loopAmount d c) = ds := by
            unfold advanceDebtors
            rw [hamt, show d.amount + -d.amount = (0:ℚ) from by ring, abs_zero,
              if_pos (by norm_num)]
          have hcdpos : 0 < c.amount + d.amount := by linarith
          have hcdk : c.amount + d.amount = ((kc + kd : ℤ) : ℚ)/50 := by
            rw [hkc, hkd]
            push_cast
            ring
          have hcdge : 1/50 ≤ c.amount + d.amount := fifty_ge (kc + kd) hcdk hcdpos
          have hadvC : advanceCreditors c cs (loopAmount d c)
              = { c with amount := c.amount + d.amount } :: cs := by
            unfold advanceCreditors
            rw [hamt, show c.amount - -d.amount = c.amount + d.amount from by ring,
              if_neg (show ¬(c.amount + d.amount < 1/100) from by linarith)]
          have hround : round2 (loopAmount d c) = loopAmount d c :=
            round2_of_fifty _ (-kd) (by rw [hamt, hkd]; push_cast; ring)
          have hcc' : ∀ x ∈ ({ c with amount := c.amount + d.amount } : BalanceEntry) :: cs,
              1/50 ≤ x.amount ∧ ∃ k : ℤ, x.amount = (k : ℚ)/50 := by
            intro x hx
            rcases List.mem_cons.mp hx with h | h
            · subst h
              exact ⟨hcdge, ⟨kc + kd, hcdk⟩⟩
            · exact hc' x h
          have hsum' : entriesSum ds +
              entriesSum (({ c with amount := c.amount + d.amount } : BalanceEntry) :: cs) = 0 := by
            rw [entriesSum_cons]
            dsimp only
            linarith
          have hbn : balNames (({ c with amount := c.amount + d.amount } : BalanceEntry) :: cs)
              = c.name :: balNames cs := rfl
          have hnodup' : (balNames ds ++
              balNames (({ c with amount := c.amount + d.amount } : BalanceEntry) :: cs)).Nodup := by
            rw [hbn]
            exact hnd.sublist
              (List.Sublist.append (List.sublist_cons_self _ _) (List.Sublist.refl _))
          have hfuel' : ds.length +
              (({ c with amount := c.amount + d.amount } : BalanceEntry) :: cs).length ≤ fuel := by
            simp only [List.length_cons] at hfuel ⊢
            omega
          obtain ⟨ihD, ihC⟩ := ih ds _ hd' hcc' hsum' hnodup' hfuel'
          have hTnames := resolveLoop_names fuel ds
            (({ c with amount := c.amount + d.amount } : BalanceEntry) :: cs)
          have hpdT : paidTotal d.name (resolveLoop fuel ds
              (({ c with amount := c.amount + d.amount } : BalanceEntry) :: cs)).1 = 0 :=
            paidTotal_eq_zero (fun t ht => (hTnames t ht).1) hd_ds
          have hrdT : receivedTotal d.name (resolveLoop fuel ds
              (({ c with amount := c.amount + d.amount } : BalanceEntry) :: cs)).1 = 0 :=
            receivedTotal_eq_zero (fun t ht => (hTnames t ht).2) (by rw [hbn]; exact hd_R)
          have hpcT : paidTotal c.name (resolveLoop fuel ds
              (({ c with amount := c.amount + d.amount } : BalanceEntry) :: cs)).1 = 0 :=
            paidTotal_eq_zero (fun t ht => (hTnames t ht).1)
              (fun h => hc_L (List.mem_cons_of_mem _ h))
          rw [resolveLoop_cons, if_pos hcondpos, hadvD, hadvC, hround, hamt]
          dsimp only
          constructor
          · intro x hx
            rcases List.mem_cons.mp hx with hxd | hxds
            · rw [hxd]
              constructor
              · rw [paidTotal_cons_mk, if_pos rfl, hpdT]
                ring
              · rw [receivedTotal_cons_mk, if_neg hcd_ne, hrdT]
                ring
            · have hxname : x.name ∈ balNames ds := hname_ds x hxds
              have hne1 : d.name ≠ x.name := fun h => hd_ds (by rw [h]; exact hxname)
              have hne2 : c.name ≠ x.name := fun h =>
                hc_L (List.mem_cons_of_mem _ (by rw [h]; exact hxname))
              constructor
              · rw [paidTotal_cons_mk, if_neg hne1, (ihD x hxds).1]
                ring
              · rw [receivedTotal_cons_mk, if_neg hne2, (ihD x hxds).2]
                ring
          · intro x hx
            rcases List.mem_cons.mp hx with hxc | hxcs
            · rw [hxc]
              constructor
              · have h1 : receivedTotal c.name (resolveLoop fuel ds
                    (({ c with amount := c.amount + d.amount } : BalanceEntry) :: cs)).1
                    = c.amount + d.amount :=
                  (ihC _ (List.mem_cons_self _ _)).1
                rw [receivedTotal_cons_mk, if_pos rfl, h1]
                ring
              · rw [paidTotal_cons_mk, if_neg hdc_ne, hpcT]
                ring
            · have hxname : x.name ∈ balNames cs := hname_cs x hxcs
              have hne1 : c.name ≠ x.name := fun h => hc_cs (by rw [h]; exact hxname)
              have hne2 : d.name ≠ x.name := fun h =>
                hd_R (List.mem_cons_of_mem _ (by rw [h]; exact hxname))
              constructor
              · have h1 : receivedTotal x.name (resolveLoop fuel ds
                    (({ c with amount := c.amount + d.amount } : BalanceEntry) :: cs)).1
                    = x.amount :=
                  (ihC x (List.mem_cons_of_mem _ hxcs)).1
                rw [receivedTotal_cons_mk, if_neg hne1, h1]
                ring
              · have h1 : paidTotal x.name (resolveLoop fuel ds
                    (({ c with amount := c.amount + d.amount } : BalanceEntry) :: cs)).1
                    = 0 :=
                  (ihC x (List.mem_cons_of_mem _ hxcs)).2
                rw [paidTotal_cons_mk, if_neg hne2, h1]
                ring
        · -- debtor and creditor retire together
          have hamt : loopAmount d c = -d.amount := by
            unfold loopAmount
            rw [min_eq_left heq.le]
            exact habs
          have heq2 : -d.amount = c.amount := by rw [habs] at heq; exact heq
          have hadvD : advanceDebtors d ds (loopAmount d c) = ds := by
            unfold advanceDebtors
            rw [hamt, show d.amount + -d.amount = (0:ℚ) from by ring, abs_zero,
              if_pos (by norm_num)]
          have hadvC : advanceCreditors c cs (loopAmount d c) = cs := by
            unfold advanceCreditors
            rw [hamt, show c.amount - -d.amount = c.amount + d.amount from by ring,
              show c.amount + d.amount = (0:ℚ) from by linarith,
              if_pos (by norm_num)]
          have hround : round2 (loopAmount d c) = loopAmount d c :=
            round2_of_fifty _ (-kd) (by rw [hamt, hkd]; push_cast; ring)
          have hsum' : entriesSum ds + entriesSum cs = 0 := by linarith
          have hnodup' : (balNames ds ++ balNames cs).Nodup :=
            hnd.sublist
              (List.Sublist.append (List.sublist_cons_self _ _) (List.sublist_cons_self _ _))
          have hfuel' : ds.length + cs.length ≤ fuel := by
            simp only [List.length_cons] at hfuel
            omega
          obtain ⟨ihD, ihC⟩ := ih ds cs hd' hc' hsum' hnodup' hfuel'
          have hTnames := resolveLoop_names fuel ds cs
          have hpdT : paidTotal d.name (resolveLoop fuel ds cs).1 = 0 :=
            paidTotal_eq_zero (fun t ht => (hTnames t ht).1) hd_ds
          have hrdT : receivedTotal d.name (resolveLoop fuel ds cs).1 = 0 :=
            receivedTotal_eq_zero (fun t ht => (hTnames t ht).2)
              (fun h => hd_R (List.mem_cons_of_mem _ h))
          have hpcT : paidTotal c.name (resolveLoop fuel ds cs).1 = 0 :=
            paidTotal_eq_zero (fun t ht => (hTnames t ht).1)
              (fun h => hc_L (List.mem_cons_of_mem _ h))
          have hrcT : receivedTotal c.name (resolveLoop fuel ds cs).1 = 0 :=
            receivedTotal_eq_zero (fun t ht => (hTnames t ht).2) hc_cs
          rw [resolveLoop_cons, if_pos hcondpos, hadvD, hadvC, hround, hamt]
          dsimp only
          constructor
          · intro x hx
            rcases List.mem_cons.mp hx with hxd | hxds
            · rw [hxd]
              constructor
              · rw [paidTotal_cons_mk, if_pos rfl, hpdT]
                ring
              · rw [receivedTotal_cons_mk, if_neg hcd_ne, hrdT]
                ring
            · have hxname : x.name ∈ balNames ds := hname_ds x hxds
              have hne1 : d.name ≠ x.name := fun h => hd_ds (by rw [h]; exact hxname)
              have hne2 : c.name ≠ x.name := fun h =>
                hc_L (List.mem_cons_of_mem _ (by rw [h]; exact hxname))
              constructor
              · rw [paidTotal_cons_mk, if_neg hne1, (ihD x hxds).1]
                ring
              · rw [receivedTotal_cons_mk, if_neg hne2, (ihD x hxds).2]
                ring
          · intro x hx
            rcases List.mem_cons.mp hx with hxc | hxcs
            · rw [hxc]
              constructor
              · rw [receivedTotal_cons_mk, if_pos rfl, hrcT]
                linarith
              · rw [paidTotal_cons_mk, if_neg hdc_ne, hpcT]
                ring
            · have hxname : x.name ∈ balNames cs := hname_cs x hxcs
              have hne1 : c.name ≠ x.name := fun h => hc_cs (by rw [h]; exact hxname)
              have hne2 : d.name ≠ x.name := fun h =>
                hd_R (List.mem_cons_of_mem _ (by rw [h]; exact hxname))
              constructor
              · rw [receivedTotal_cons_mk, if_neg hne1, (ihC x hxcs).1]
                ring
              · rw [paidTotal_cons_mk, if_neg hne2, (ihC x hxcs).2]
                ring
        · -- the creditor is fully collected and retires; the debtor keeps a rest
          have hamt : loopAmount d c = c.amount := by
            unfold loopAmount
            exact min_eq_right hgt.le
          have hgt2 : c.amount < -d.amount := by rw [habs] at hgt; exact hgt
          have hdcneg : d.amount + c.amount < 0 := by linarith
          have hdck : d.amount + c.amount = ((kd + kc : ℤ) : ℚ)/50 := by
            rw [hkd, hkc]
            push_cast
            ring
          have hdcle : d.amount + c.amount ≤ -(1/50) := fifty_le_neg (kd + kc) hdck hdcneg
          have habs2 : |d.amount + c.amount| = -(d.amount + c.amount) :=
            abs_of_nonpos (by linarith)
          have hadvD : advanceDebtors d ds (loopAmount d c)
              = { d with amount := d.amount + c.amount } :: ds := by
            unfold advanceDebtors
            rw [hamt, if_neg (show ¬(|d.amount + c.amount| < 1/100) from by
              rw [habs2]; push_neg; linarith)]
          have hadvC : advanceCreditors c cs (loopAmount d c) = cs := by
            unfold advanceCreditors
            rw [hamt, sub_self, if_pos (by norm_num)]
          have hround : round2 (loopAmount d c) = loopAmount d c :=
            round2_of_fifty _ kc (by rw [hamt, hkc])
          have hdd' : ∀ x ∈ ({ d with amount := d.amount + c.amount } : BalanceEntry) :: ds,
              x.amount ≤ -(1/50) ∧ ∃ k : ℤ, x.amount = (k : ℚ)/50 := by
            intro x hx
            rcases List.mem_cons.mp hx with h | h
            · subst h
              exact ⟨hdcle, ⟨kd + kc, hdck⟩⟩
            · exact hd' x h
          have hsum' : entriesSum (({ d with amount := d.amount + c.amount } : BalanceEntry) :: ds)
              + entriesSum cs = 0 := by
            rw [entriesSum_cons]
            dsimp only
            linarith
          have hbn : balNames (({ d with amount := d.amount + c.amount } : BalanceEntry) :: ds)
              = d.name :: balNames ds := rfl
          have hnodup' : (balNames (({ d with amount := d.amount + c.amount } : BalanceEntry) :: ds)
              ++ balNames cs).Nodup := by
            rw [hbn]
            exact hnd.sublist
              (List.Sublist.append (List.Sublist.refl _) (List.sublist_cons_self _ _))
          have hfuel' : (({ d with amount := d.amount + c.amount } : BalanceEntry) :: ds).length
              + cs.length ≤ fuel := by
            simp only [List.length_cons] at hfuel ⊢
            omega
          obtain ⟨ihD, ihC⟩ := ih _ cs hdd' hc' hsum' hnodup' hfuel'
          have hTnames := resolveLoop_names fuel
            (({ d with amount := d.amount + c.amount } : BalanceEntry) :: ds) cs
          have hrdT : receivedTotal d.name (resolveLoop fuel
              (({ d with amount := d.amount + c.amount } : BalanceEntry) :: ds) cs).1 = 0 :=
            receivedTotal_eq_zero (fun t ht => (hTnames t ht).2)
              (fun h => hd_R (List.mem_cons_of_mem _ h))
          have hpcT : paidTotal c.name (resolveLoop fuel
              (({ d with amount := d.amount + c.amount } : BalanceEntry) :: ds) cs).1 = 0 :=
            paidTotal_eq_zero (fun t ht => (hTnames t ht).1) (by rw [hbn]; exact hc_L)
          have hrcT : receivedTotal c.name (resolveLoop fuel
              (({ d with amount := d.amount + c.amount } : BalanceEntry) :: ds) cs).1 = 0 :=
            receivedTotal_eq_zero (fun t ht => (hTnames t ht).2) hc_cs
          rw [resolveLoop_cons, if_pos hcondpos, hadvD, hadvC, hround, hamt]
          dsimp only
          constructor
          · intro x hx
            rcases List.mem_cons.mp hx with hxd | hxds
            · rw [hxd]
              constructor
              · have h1 : paidTotal d.name (resolveLoop fuel
                    (({ d with amount := d.amount + c.amount } : BalanceEntry) :: ds) cs).1
                    = -(d.amount + c.amount) :=
                  (ihD _ (List.mem_cons_self _ _)).1
                rw [paidTotal_cons_mk, if_pos rfl, h1]
                ring
              · rw [receivedTotal_cons_mk, if_neg hcd_ne, hrdT]
                ring
            · have hxname : x.name ∈ balNames ds := hname_ds x hxds
              have hne1 : d.name ≠ x.name := fun h => hd_ds (by rw [h]; exact hxname)
              have hne2 : c.name ≠ x.name := fun h =>
                hc_L (List.mem_cons_of_mem _ (by rw [h]; exact hxname))
              constructor
              · have h1 : paidTotal x.name (resolveLoop fuel
                    (({ d with amount := d.amount + c.amount } : BalanceEntry) :: ds) cs).1
                    = -x.amount :=
                  (ihD x (List.mem_cons_of_mem _ hxds)).1
                rw [paidTotal_cons_mk, if_neg hne1, h1]
                ring
              · have h1 : receivedTotal x.name (resolveLoop fuel
                    (({ d with amount := d.amount + c.amount } : BalanceEntry) :: ds) cs).1
                    = 0 :=
                  (ihD x (List.mem_cons_of_mem _ hxds)).2
                rw [receivedTotal_cons_mk, if_neg hne2, h1]
                ring
          · intro x hx
            rcases List.mem_cons.mp hx with hxc | hxcs
            · rw [hxc]
              constructor
              · rw [receivedTotal_cons_mk, if_pos rfl, hrcT]
                ring
              · rw [paidTotal_cons_mk, if_neg hdc_ne, hpcT]
                ring
            · have hxname : x.name ∈ balNames cs := hname_cs x hxcs
              have hne1 : c.name ≠ x.name := fun h => hc_cs (by rw [h]; exact hxname)
              have hne2 : d.name ≠ x.name := fun h =>
                hd_R (List.mem_cons_of_mem _ (by rw [h]; exact hxname))
              constructor
              · rw [receivedTotal_cons_mk, if_neg hne1, (ihC x hxcs).1]
                ring
              · rw [paidTotal_cons_mk, if_neg hne2, (ihC x hxcs).2]
                ring

theorem entriesSum_perm {l1 l2 : List BalanceEntry} (h : l1.Perm l2) :
    entriesSum l1 = entriesSum l2 :=
  (h.map _).sum_eq

theorem entriesSum_classified (bs : List BalanceEntry)
    (hzero : ∀ b ∈ bs, ¬(b.amount < -(1/100)) → ¬(1/100 < b.amount) → b.amount = 0) :
    entriesSum (debtorsOf bs) + entriesSum (creditorsOf bs) = entriesSum bs := by
  induction bs with
  | nil => exact show (0 : ℚ) + 0 = 0 by norm_num
  | cons b bs ih =>
    have ih' := ih (fun x hx h1 h2 => hzero x (List.mem_cons_of_mem _ hx) h1 h2)
    rw [entriesSum_cons]
    by_cases h1 : b.amount < -(1/100)
    · have h2 : ¬(1/100 < b.amount) := by linarith
      have hD : debtorsOf (b :: bs) = b :: debtorsOf bs := by
        rw [debtorsOf, debtorsOf, List.filter_cons, if_pos (by simpa using h1)]
      have hC : creditorsOf (b :: bs) = creditorsOf bs := by
        rw [creditorsOf, creditorsOf, List.filter_cons, if_neg (by simpa using h2)]
      rw [hD, hC, entriesSum_cons]
      linarith
    · by_cases h2 : 1/100 < b.amount
      · have hD : debtorsOf (b :: bs) = debtorsOf bs := by
          rw [debtorsOf, debtorsOf, List.filter_cons, if_neg (by simpa using h1)]
        have hC : creditorsOf (b :: bs) = b :: creditorsOf bs := by
          rw [creditorsOf, creditorsOf, List.filter_cons, if_pos (by simpa using h2)]
        rw [hD, hC, entriesSum_cons]
        linarith
      · have hb0 : b.amount = 0 := hzero b (List.mem_cons_self _ _) h1 h2
        have hD : debtorsOf (b :: bs) = debtorsOf bs := by
          rw [debtorsOf, debtorsOf, List.filter_cons, if_neg (by simpa using h1)]
        have hC : creditorsOf (b :: bs) = creditorsOf bs := by
          rw [creditorsOf, creditorsOf, List.filter_cons, if_neg (by simpa using h2)]
        rw [hD, hC, hb0]
        linarith

theorem fifty_small_zero {x : ℚ} (k : ℤ) (hk : x = (k : ℚ)/50)
    (h1 : ¬(x < -(1/100))) (h2 : ¬(1/100 < x)) : x = 0 := by
  subst hk
  push_neg at h1 h2
  have hub : (k : ℚ) < 1 := by linarith
  have hlb : (-1 : ℚ) < (k : ℚ) := by linarith
  have hub2 : k < 1 := by exact_mod_cast hub
  have hlb2 : (-1 : ℤ) < k := by exact_mod_cast hlb
  have hk0 : k = 0 := by omega
  rw [hk0]
  norm_num

/-- C2 (amended): for balances produced from expenses that reference only
known participants (hence zero-sum), with unique display names, and under the
additional granularity condition that every computed balance is a whole
multiple of 2 epsilon = 0.02 (for instance when all balances land on even
cents), applying every emitted transfer — subtracting its amount from the
receiver and adding it to the payer — drives every participant balance to
exactly 0.  Without the granularity condition the claim fails: sub-epsilon
balances are excluded from matching, a matched amount of exactly epsilon is
not emitted, and 2-decimal rounding distorts amounts, each leaving residuals
beyond epsilon (see the counterexample). -/
theorem settlement_drives_balances_to_zero (tb : ℚ) (ps : List Participant) (es : List Expense)
    (href : ∀ e ∈ es, e.paidById ∈ ps.map Participant.id ∧
        ∀ pid ∈ e.splitWithIds, pid ∈ ps.map Participant.id)
    (hnames : (ps.map Participant.name).Nodup)
    (hgrain : ∀ b ∈ computeBalances ps es, ∃ k : ℤ, b.amount = (k : ℚ)/50) :
    ∀ b ∈ applyDebts (computeBalances ps es) (getBudgetResponse tb ps es).debts,
      b.amount = 0 := by
  intro b hb
  have hsum : entriesSum (computeBalances ps es) = 0 := computeBalances_sum ps es href
  have hnodup : (balNames (computeBalances ps es)).Nodup := by
    rw [computeBalances_balNames]
    exact hnames
  have hinj : ∀ x ∈ computeBalances ps es, ∀ y ∈ computeBalances ps es,
      x.name = y.name → x = y := by
    intro x hx y hy hxy
    exact List.inj_on_of_nodup_map hnodup hx hy hxy
  have hds : ∀ x ∈ sortAsc (debtorsOf (computeBalances ps es)),
      x.amount ≤ -(1/50) ∧ ∃ k : ℤ, x.amount = (k : ℚ)/50 := by
    intro x hx
    have hx0 : x ∈ debtorsOf (computeBalances ps es) := (sortAsc_perm _).mem_iff.mp hx
    obtain ⟨hxbs, hxlt⟩ := mem_debtorsOf hx0
    obtain ⟨k, hk⟩ := hgrain x hxbs
    exact ⟨fifty_le_neg k hk (by linarith), ⟨k, hk⟩⟩
  have hcs : ∀ x ∈ sortDesc (creditorsOf (computeBalances ps es)),
      1/50 ≤ x.amount ∧ ∃ k : ℤ, x.amount = (k : ℚ)/50 := by
    intro x hx
    have hx0 : x ∈ creditorsOf (computeBalances ps es) := (sortDesc_perm _).mem_iff.mp hx
    obtain ⟨hxbs, hxgt⟩ := mem_creditorsOf hx0
    obtain ⟨k, hk⟩ := hgrain x hxbs
    exact ⟨fifty_ge k hk (by linarith), ⟨k, hk⟩⟩
  have hzero : ∀ x ∈ computeBalances ps es,
      ¬(x.amount < -(1/100)) → ¬(1/100 < x.amount) → x.amount = 0 := by
    intro x hx h1 h2
    obtain ⟨k, hk⟩ := hgrain x hx
    exact fifty_small_zero k hk h1 h2
  have hsum2 : entriesSum (sortAsc (debtorsOf (computeBalances ps es)))
      + entriesSum (sortDesc (creditorsOf (computeBalances ps es))) = 0 := by
    rw [entriesSum_perm (sortAsc_perm _), entriesSum_perm (sortDesc_perm _),
      entriesSum_classified _ hzero, hsum]
  have hndDC : (balNames (debtorsOf (computeBalances ps es))
      ++ balNames (creditorsOf (computeBalances ps es))).Nodup := by
    rw [List.nodup_append]
    refine ⟨?_, ?_, ?_⟩
    · exact hnodup.sublist ((List.filter_sublist _).map _)
    · exact hnodup.sublist ((List.filter_sublist _).map _)
    · intro n hn1 hn2
      obtain ⟨x, hx, hxn⟩ := List.mem_map.mp hn1
      obtain ⟨y, hy, hyn⟩ := List.mem_map.mp hn2
      obtain ⟨hxbs, hxlt⟩ := mem_debtorsOf hx
      obtain ⟨hybs, hygt⟩ := mem_creditorsOf hy
      have hxy : x = y := hinj x hxbs y hybs (by rw [hxn, hyn])
      rw [hxy] at hxlt
      linarith
  have hndS : (balNames (sortAsc (debtorsOf (computeBalances ps es)))
      ++ balNames (sortDesc (creditorsOf (computeBalances ps es)))).Nodup :=
    ((((sortAsc_perm _).map _).append ((sortDesc_perm _).map _)).nodup_iff).mpr hndDC
  obtain ⟨SD, SC⟩ := resolveLoop_settles
    ((sortAsc (debtorsOf (computeBalances ps es))).length +
      (sortDesc (creditorsOf (computeBalances ps es))).length)
    (sortAsc (debtorsOf (computeBalances ps es)))
    (sortDesc (creditorsOf (computeBalances ps es)))
    hds hcs hsum2 hndS (le_refl _)
  have hTnames := resolveLoop_names
    ((sortAsc (debtorsOf (computeBalances ps es))).length +
      (sortDesc (creditorsOf (computeBalances ps es))).length)
    (sortAsc (debtorsOf (computeBalances ps es)))
    (sortDesc (creditorsOf (computeBalances ps es)))
  rw [applyDebts_map _ _ hnodup] at hb
  obtain ⟨b0, hb0, rfl⟩ := List.mem_map.mp hb
  dsimp only
  by_cases h1 : b0.amount < -(1/100)
  · have hmem : b0 ∈ sortAsc (debtorsOf (computeBalances ps es)) :=
      (sortAsc_perm _).mem_iff.mpr (List.mem_filter.mpr ⟨hb0, decide_eq_true h1⟩)
    have hpaid : paidTotal b0.name (getBudgetResponse tb ps es).debts = -b0.amount :=
      (SD b0 hmem).1
    have hrecv : receivedTotal b0.name (getBudgetResponse tb ps es).debts = 0 :=
      (SD b0 hmem).2
    rw [hpaid, hrecv]
    ring
  · by_cases h2 : 1/100 < b0.amount
    · have hmem : b0 ∈ sortDesc (creditorsOf (computeBalances ps es)) :=
        (sortDesc_perm _).mem_iff.mpr (List.mem_filter.mpr ⟨hb0, decide_eq_true h2⟩)
      have hrecv : receivedTotal b0.name (getBudgetResponse tb ps es).debts = b0.amount :=
        (SC b0 hmem).1
      have hpaid : paidTotal b0.name (getBudgetResponse tb ps es).debts = 0 :=
        (SC b0 hmem).2
      rw [hpaid, hrecv]
      ring
    · have hb00 : b0.amount = 0 := hzero b0 hb0 h1 h2
      have hnd : b0.name ∉ balNames (sortAsc (debtorsOf (computeBalances ps es))) := by
        intro hmem
        have hmem2 : b0.name ∈ balNames (debtorsOf (computeBalances ps es)) :=
          ((sortAsc_perm _).map _).mem_iff.mp hmem
        obtain ⟨x, hx, hxn⟩ := List.mem_map.mp hmem2
        obtain ⟨hxbs, hxlt⟩ := mem_debtorsOf hx
        have hxb : x = b0 := hinj x hxbs b0 hb0 hxn
        rw [hxb] at hxlt
        exact h1 hxlt
      have hnc : b0.name ∉ balNames (sortDesc (creditorsOf (computeBalances ps es))) := by
        intro hmem
        have hmem2 : b0.name ∈ balNames (creditorsOf (computeBalances ps es)) :=
          ((sortDesc_perm _).map _).mem_iff.mp hmem
        obtain ⟨x, hx, hxn⟩ := List.mem_map.mp hmem2
        obtain ⟨hxbs, hxgt⟩ := mem_creditorsOf hx
        have hxb : x = b0 := hinj x hxbs b0 hb0 hxn
        rw [hxb] at hxgt
        exact h2 hxgt
      have hpaid : paidTotal b0.name (getBudgetResponse tb ps es).debts = 0 :=
        paidTotal_eq_zero (fun t ht => (hTnames t ht).1) hnd
      have hrecv : receivedTotal b0.name (getBudgetResponse tb ps es).debts = 0 :=
        receivedTotal_eq_zero (fun t ht => (hTnames t ht).2) hnc
      rw [hpaid, hrecv, hb00]
      ring

/-- C2 counterexample: with participants D, C1, C2 and expenses
`{0.018, paidBy: C1, splitWith: [C1, D]}` and `{0.018, paidBy: C2,
splitWith: [C2, D]}` — all references known, so balances are exactly
zero-sum — the balances are D: -0.018, C1: +0.009, C2: +0.009.  Both
creditors fall below the epsilon threshold and are excluded, so no transfer
is emitted at all, and applying the (empty) emitted transfer list leaves D
at -0.018, outside epsilon = 0.01. -/
theorem settlement_residual_beyond_epsilon :
    (getBudgetResponse 0 [⟨"d", "D"⟩, ⟨"c1", "C1"⟩, ⟨"c2", "C2"⟩]
        [⟨9/500, "c1", ["c1", "d"]⟩, ⟨9/500, "c2", ["c2", "d"]⟩]).debts = [] ∧
    ¬ (∀ b ∈ applyDebts
        (computeBalances [⟨"d", "D"⟩, ⟨"c1", "C1"⟩, ⟨"c2", "C2"⟩]
          [⟨9/500, "c1", ["c1", "d"]⟩, ⟨9/500, "c2", ["c2", "d"]⟩])
        (getBudgetResponse 0 [⟨"d", "D"⟩, ⟨"c1", "C1"⟩, ⟨"c2", "C2"⟩]
          [⟨9/500, "c1", ["c1", "d"]⟩, ⟨9/500, "c2", ["c2", "d"]⟩]).debts,
        |b.amount| ≤ 1/100) := by
  have hdebts : (getBudgetResponse 0 [⟨"d", "D"⟩, ⟨"c1", "C1"⟩, ⟨"c2", "C2"⟩]
      [⟨9/500, "c1", ["c1", "d"]⟩, ⟨9/500, "c2", ["c2", "d"]⟩]).debts = [] := by
    norm_num +decide [getBudgetResponse, resolveDebts, computeBalances, applyExpense, addTo,
      balIds, debtorsOf, creditorsOf, sortAsc, sortDesc, insertAsc, insertDesc, resolveLoop,
      loopAmount, advanceDebtors, advanceCreditors, round2, round_eq, inf_eq_min, min_def,
      abs_eq_max_neg, max_def]
  have hbal : computeBalances [⟨"d", "D"⟩, ⟨"c1", "C1"⟩, ⟨"c2", "C2"⟩]
      [⟨9/500, "c1", ["c1", "d"]⟩, ⟨9/500, "c2", ["c2", "d"]⟩]
      = [⟨"d", "D", -(9/500)⟩, ⟨"c1", "C1", 9/1000⟩, ⟨"c2", "C2", 9/1000⟩] := by
    norm_num +decide [computeBalances, applyExpense, addTo, balIds]
  refine ⟨hdebts, fun hall => ?_⟩
  have hmem : (⟨"d", "D", -(9/500)⟩ : BalanceEntry) ∈ applyDebts
      (computeBalances [⟨"d", "D"⟩, ⟨"c1", "C1"⟩, ⟨"c2", "C2"⟩]
        [⟨9/500, "c1", ["c1", "d"]⟩, ⟨9/500, "c2", ["c2", "d"]⟩])
      (getBudgetResponse 0 [⟨"d", "D"⟩, ⟨"c1", "C1"⟩, ⟨"c2", "C2"⟩]
        [⟨9/500, "c1", ["c1", "d"]⟩, ⟨9/500, "c2", ["c2", "d"]⟩]).debts := by
    rw [hdebts]
    show (⟨"d", "D", -(9/500)⟩ : BalanceEntry) ∈ computeBalances
      [⟨"d", "D"⟩, ⟨"c1", "C1"⟩, ⟨"c2", "C2"⟩]
      [⟨9/500, "c1", ["c1", "d"]⟩, ⟨9/500, "c2", ["c2", "d"]⟩]
    rw [hbal]
    exact List.mem_cons_self _ _
  have hout := hall _ hmem
  norm_num [abs_eq_max_neg, max_def] at hout

/-- C2 witness: the amended theorem applied to participants A, B and the
single expense `{0.04, paidBy: A, splitWith: [A, B]}`, whose balances
(+0.02, -0.02) are whole multiples of 2 epsilon; the applied balance of A is
exactly 0. -/
theorem settlement_drives_balances_to_zero_witness :
    (⟨"a", "A", 0⟩ : BalanceEntry) ∈ applyDebts
      (computeBalances [⟨"a", "A"⟩, ⟨"b", "B"⟩] [⟨1/25, "a", ["a", "b"]⟩])
      (getBudgetResponse 0 [⟨"a", "A"⟩, ⟨"b", "B"⟩] [⟨1/25, "a", ["a", "b"]⟩]).debts ∧
    (⟨"a", "A", (0 : ℚ)⟩ : BalanceEntry).amount = 0 := by
  have hmem : (⟨"a", "A", 0⟩ : BalanceEntry) ∈ applyDebts
      (computeBalances [⟨"a", "A"⟩, ⟨"b", "B"⟩] [⟨1/25, "a", ["a", "b"]⟩])
      (getBudgetResponse 0 [⟨"a", "A"⟩, ⟨"b", "B"⟩] [⟨1/25, "a", ["a", "b"]⟩]).debts := by
    norm_num +decide [applyDebts, applyTransfer, addToByName, getBudgetResponse, resolveDebts,
      computeBalances, applyExpense, addTo, balIds, debtorsOf, creditorsOf, sortAsc, sortDesc,
      insertAsc, insertDesc, resolveLoop, loopAmount, advanceDebtors, advanceCreditors, round2,
      round_eq, inf_eq_min, min_def, abs_eq_max_neg, max_def]
  have hgrain : ∀ b ∈ computeBalances [⟨"a", "A"⟩, ⟨"b", "B"⟩] [⟨1/25, "a", ["a", "b"]⟩],
      ∃ k : ℤ, b.amount = (k : ℚ)/50 := by
    have hbal : computeBalances [⟨"a", "A"⟩, ⟨"b", "B"⟩] [⟨1/25, "a", ["a", "b"]⟩]
        = [⟨"a", "A", 1/50⟩, ⟨"b", "B", -(1/50)⟩] := by
      norm_num +decide [computeBalances, applyExpense, addTo, balIds]
    rw [hbal]
    intro b hb
    rcases List.mem_cons.mp hb with hb1 | hb2
    · exact ⟨1, by rw [hb1]; norm_num⟩
    · have hb3 : b = ⟨"b", "B", -(1/50)⟩ := by simpa using hb2
      exact ⟨-1, by rw [hb3]; norm_num⟩
  exact ⟨hmem, settlement_drives_balances_to_zero 0 [⟨"a", "A"⟩, ⟨"b", "B"⟩]
    [⟨1/25, "a", ["a", "b"]⟩] (by decide) (by decide) hgrain _ hmem⟩
